import Mathlib

/-!
Shallow embedding of the PhotoVault ingestion and AI indexing pipeline
(backend/app: workers/tasks.py, api/routes/jobs.py, api/routes/people.py,
services/incremental_scanner.py, services/ai/face_service.py,
services/media/processor.py, models/models.py), together with theorems
settling the specification claims about job orchestration, deduplication,
change detection, feature extraction, face clustering and person merging.

Machine state (the relational store) is passed explicitly; fallible
endpoints return Except; per-item exceptions and capability outcomes are
oracle inputs, since the Python code obtains them from the outside world.
-/

namespace PhotoVault

/-- Job status strings of ProcessingJob.status (models.py 296, jobs.py,
tasks.py): pending, running, completed, failed, cancelled. -/
inductive JobStatus
  | pending
  | running
  | completed
  | failed
  | cancelled
  deriving DecidableEq, Repr

/-- ProcessingJob row (models.py 288-315), restricted to the fields the
claims speak about. -/
structure ProcessingJob where
  userId : Nat
  jobType : String
  status : JobStatus
  totalItems : Nat
  processedItems : Nat
  failedItems : Nat
  deriving DecidableEq, Repr

/-- A fresh job row as created by the trigger endpoints (jobs.py 121-125,
162-167, 204-209, 246-251): status pending, counters zero. -/
def newJob (uid : Nat) (jtype : String) : ProcessingJob :=
  { userId := uid, jobType := jtype, status := .pending,
    totalItems := 0, processedItems := 0, failedItems := 0 }

/-- The existence check of jobs.py 107-114: is there a job of this user and
type whose status is pending or running. -/
def hasActiveJob (db : List ProcessingJob) (uid : Nat) (jtype : String) : Bool :=
  db.any (fun j =>
    j.userId == uid && j.jobType == jtype &&
      (j.status == .pending || j.status == .running))

/-- POST /jobs/scan (jobs.py 92-142). Rejects when the user has no NAS path
or an active scan job exists; otherwise appends a pending scan job. -/
def trigger_scan (db : List ProcessingJob) (uid : Nat) (hasNasPath : Bool) :
    Except String (List ProcessingJob) :=
  if !hasNasPath then .error "No NAS path configured for user"
  else if hasActiveJob db uid "scan" then .error "A scan is already in progress"
  else .ok (db ++ [newJob uid "scan"])

/-- POST /jobs/process-faces (jobs.py 145-184). Only the settings toggle is
checked; the job row is appended unconditionally otherwise. -/
def trigger_face_processing (db : List ProcessingJob) (uid : Nat)
    (faceEnabled : Bool) : Except String (List ProcessingJob) :=
  if !faceEnabled then .error "Face recognition is disabled in settings"
  else .ok (db ++ [newJob uid "face_recognition"])

/-- POST /jobs/process-clip (jobs.py 187-226). Only the settings toggle is
checked; the job row is appended unconditionally otherwise. -/
def trigger_clip_processing (db : List ProcessingJob) (uid : Nat)
    (clipEnabled : Bool) : Except String (List ProcessingJob) :=
  if !clipEnabled then .error "CLIP processing is disabled in settings"
  else .ok (db ++ [newJob uid "clip_embedding"])

/-- POST /jobs/process-yolo (jobs.py 229-268). Only the settings toggle is
checked; the job row is appended unconditionally otherwise. -/
def trigger_yolo_processing (db : List ProcessingJob) (uid : Nat)
    (yoloEnabled : Bool) : Except String (List ProcessingJob) :=
  if !yoloEnabled then .error "YOLO processing is disabled in settings"
  else .ok (db ++ [newJob uid "yolo_detection"])

/-- POST /jobs/{job_id}/cancel (jobs.py 271-301): rejected unless the
status is pending or running, otherwise the status becomes cancelled. -/
def cancel_job (job : ProcessingJob) : Except String ProcessingJob :=
  if job.status != .pending && job.status != .running then
    .error "Job cannot be cancelled"
  else .ok { job with status := .cancelled }

/-- The per-item loop of process_ai_features (tasks.py 254-405), viewed
through the job counters alone: each list element is one media item of the
run, true when its try block committed (processed += 1, tasks.py 391) and
false when the file was missing or an exception rolled the item back
(failed += 1, tasks.py 260, 404). Returns the job states committed after
each successful item (tasks.py 394-395) and finally the completion state
(tasks.py 408-412). -/
def aiLoopStates (job : ProcessingJob) (processed failed : Nat) :
    List Bool → List ProcessingJob
  | [] =>
      [{ job with status := .completed, processedItems := processed,
                  failedItems := failed }]
  | true :: rest =>
      let j := { job with processedItems := processed + 1 }
      j :: aiLoopStates j (processed + 1) failed rest
  | false :: rest => aiLoopStates job processed (failed + 1) rest

/-- All job states a run of process_ai_features commits to the store, in
order: the initial row, the claimed row (status running, totalItems set,
tasks.py 222-249), the per-item progress rows and the completion row. -/
def aiTrace (job : ProcessingJob) (items : List Bool) : List ProcessingJob :=
  let started := { job with status := .running, totalItems := items.length }
  job :: started :: aiLoopStates started 0 0 items

/-- The per-item loop of process_ai_features again, now as the final job
row it leaves behind: counters as in aiLoopStates, then the completion
write of tasks.py 408-412. -/
def aiLoopFinal (job : ProcessingJob) (processed failed : Nat) :
    List Bool → ProcessingJob
  | [] =>
      { job with status := .completed, processedItems := processed,
                 failedItems := failed }
  | true :: rest =>
      aiLoopFinal { job with processedItems := processed + 1 }
        (processed + 1) failed rest
  | false :: rest => aiLoopFinal job processed (failed + 1) rest

/-- The final job state of a process_ai_features run (tasks.py 208-412). -/
def process_ai_features (job : ProcessingJob) (items : List Bool) :
    ProcessingJob :=
  aiLoopFinal { job with status := .running, totalItems := items.length }
    0 0 items

/-- Media row (models.py 78-154 plus the perceptual_hash column of the
migration 001_initial.py 78, which the ORM model omits and the pipeline
never writes), restricted to the fields the dedup claims speak about. -/
structure MediaRow where
  ownerId : Nat
  originalPath : String
  fileHash : String
  perceptualHash : Option String
  isDeleted : Bool
  deriving DecidableEq, Repr

/-- One file presented to the scan loop. content stands for the file bytes;
raisesError signals that processing this file raises an exception somewhere
between process_media_file and the final commit (tasks.py 183-186), in
which case the transaction is rolled back. -/
structure ScanFile where
  path : String
  content : String
  raisesError : Bool
  deriving DecidableEq, Repr

/-- One iteration of the scan loop of scan_and_index_media
(tasks.py 103-186) for owner uid: skip files whose path is already indexed
(106-113), skip files whose strong content hash already exists for this
owner (118-127), otherwise insert a Media row (129-157); an exception
increments the failure count and leaves the store unchanged (183-186).
hashFn abstracts the SHA-256 digest of the file bytes (processor.py
27-33). The Media insert sets no perceptual hash: process_media_file
(processor.py 330-356) returns none and tasks.py 130-154 stores none. -/
def scanStep (hashFn : String → String) (uid : Nat)
    (st : List MediaRow × Nat × Nat) (f : ScanFile) :
    List MediaRow × Nat × Nat :=
  let (db, processed, failed) := st
  if db.any (fun m => m.ownerId == uid && m.originalPath == f.path) then
    (db, processed + 1, failed)
  else if f.raisesError then
    (db, processed, failed + 1)
  else if db.any (fun m => m.ownerId == uid && m.fileHash == hashFn f.content) then
    (db, processed + 1, failed)
  else
    (db ++ [{ ownerId := uid, originalPath := f.path,
              fileHash := hashFn f.content, perceptualHash := none,
              isDeleted := false }],
     processed + 1, failed)

/-- The scan loop over all enumerated files of one user
(tasks.py 103-186). -/
def scanLoop (hashFn : String → String) (uid : Nat) (db : List MediaRow)
    (files : List ScanFile) : List MediaRow × Nat × Nat :=
  files.foldl (scanStep hashFn uid) (db, 0, 0)

/-- A full scan_and_index_media run for one user (tasks.py 48-205):
status running, totalItems set to the enumeration size (tasks.py 64-101),
the file loop, then the completion state (tasks.py 188-193). Returns the
store and the final job row. -/
def scan_and_index_media (hashFn : String → String) (uid : Nat)
    (job : ProcessingJob) (db : List MediaRow) (files : List ScanFile) :
    List MediaRow × ProcessingJob :=
  let r := scanLoop hashFn uid db files
  (r.1,
   { job with status := .completed, totalItems := files.length,
              processedItems := r.2.1, failedItems := r.2.2 })

/-- The live rows of the store: Media rows not soft-deleted. -/
def liveRows (db : List MediaRow) : List MediaRow :=
  db.filter (fun m => !m.isDeleted)

/-- The invariant of models.py 31 (spec section 3): among non-deleted Media
rows, no two distinct rows share owner and strong content hash. -/
def UniqueOwnerHash (db : List MediaRow) : Prop :=
  (liveRows db).Pairwise
    (fun a b => ¬(a.ownerId = b.ownerId ∧ a.fileHash = b.fileHash))

/-- ChangeType (incremental_scanner.py 23-27). -/
inductive ChangeType
  | NEW
  | MODIFIED
  | DELETED
  | UNCHANGED
  deriving DecidableEq, Repr

/-- A file signature: last-seen modification time and size
(incremental_scanner.py 70-75). -/
structure Sig where
  mtime : Nat
  size : Nat
  deriving DecidableEq, Repr

/-- FileChange (incremental_scanner.py 30-37). -/
structure FileChange where
  path : String
  changeType : ChangeType
  oldSig : Option Sig
  newSig : Option Sig
  deriving DecidableEq, Repr

/-- IncrementalScanner.detect_changes (incremental_scanner.py 91-113). The
store view (the get_indexed_files call) and the filesystem enumeration with
its stat results (the scan_filesystem and get_file_signature calls, neither
of which the class defines) are taken as inputs. The code emits a NEW event
for every current path absent from the store (99-105) and a DELETED event
for every stored path absent from the filesystem (108-111); paths present
on both sides are never compared and produce no event. -/
def detect_changes (indexed : List (String × Sig)) (current : List (String × Sig)) :
    List FileChange :=
  let indexedPaths := indexed.map Prod.fst
  let currentPaths := current.map Prod.fst
  ((current.filter (fun c => !indexedPaths.contains c.1)).map
      (fun c => { path := c.1, changeType := .NEW, oldSig := none,
                  newSig := some c.2 }))
    ++ ((indexed.filter (fun i => !currentPaths.contains i.1)).map
      (fun i => { path := i.1, changeType := .DELETED, oldSig := some i.2,
                  newSig := none }))

/-- Squared Euclidean distance between two encodings, componentwise over
zipped coordinates, in any linear ordered commutative ring (the Python
encodings are real vectors; every claim is stated for all such rings, with
the rationals an instance). compare_faces (face_service.py 99-112)
computes the Euclidean norm of the difference and tests distance
less-or-equal tolerance; both sides being nonnegative, that test is
equivalent to the squared test modeled here, which avoids square roots. -/
def sqDist {α : Type} [LinearOrderedCommRing α] (a b : List α) : α :=
  (List.zipWith (fun x y => (x - y) * (x - y)) a b).sum

/-- The is_match result of compare_faces (face_service.py 108-110):
distance within tolerance, via the squared comparison. -/
def isMatch {α : Type} [LinearOrderedCommRing α] (tol : α) (a b : List α) :
    Bool :=
  decide (sqDist a b ≤ tol * tol)

/-- The inner loop of cluster_faces (face_service.py 164-171): scan the
remaining indices js in order; an index already assigned is skipped, an
unassigned index whose encoding matches encoding i joins the cluster and
is marked assigned. Returns the collected indices and the updated
assignment map. -/
def collectCluster {α : Type} [LinearOrderedCommRing α] (tol : α)
    (encs : List (List α)) (i : Nat) :
    List Nat → (Nat → Bool) → List Nat × (Nat → Bool)
  | [], assigned => ([], assigned)
  | j :: js, assigned =>
    if assigned j then collectCluster tol encs i js assigned
    else if isMatch tol (encs.getD i []) (encs.getD j []) then
      let r := collectCluster tol encs i js
        (fun k => if k = j then true else assigned k)
      (j :: r.1, r.2)
    else collectCluster tol encs i js assigned

/-- The outer loop of cluster_faces (face_service.py 156-173): each
unassigned index i starts a new cluster, marks itself assigned, and
collects the later unassigned indices matching i. -/
def clusterLoop {α : Type} [LinearOrderedCommRing α] (tol : α)
    (encs : List (List α)) :
    List Nat → (Nat → Bool) → List (List Nat)
  | [], _ => []
  | i :: is, assigned =>
    if assigned i then clusterLoop tol encs is assigned
    else
      let r := collectCluster tol encs i
        ((List.range encs.length).drop (i + 1))
        (fun k => if k = i then true else assigned k)
      (i :: r.1) :: clusterLoop tol encs is r.2

/-- cluster_faces (face_service.py 141-175): group face encodings by index
into candidate person clusters. -/
def cluster_faces {α : Type} [LinearOrderedCommRing α] (tol : α)
    (encs : List (List α)) : List (List Nat) :=
  clusterLoop tol encs (List.range encs.length) (fun _ => false)

/-- True when indices i and j appear together in some emitted cluster. -/
def inSameCluster (clusters : List (List Nat)) (i j : Nat) : Bool :=
  clusters.any (fun c => c.contains i && c.contains j)

/-- Media type strings (models.py 92). -/
inductive MediaType
  | photo
  | video
  deriving DecidableEq, Repr

/-- The capability-relevant part of a Media row (models.py 122-129): the
three independent completion flags and the per-capability persisted
results. The scalar type of embedding coordinates is a parameter; the
extraction stage never computes with it. -/
structure MediaAi (α : Type) where
  mediaType : MediaType
  clipProcessed : Bool
  faceProcessed : Bool
  yoloProcessed : Bool
  clipEmbedding : Option (List α)
  yoloDetections : Option (List String)
  deriving DecidableEq, Repr

/-- The process_type argument of process_ai_features (tasks.py 209). -/
inductive ProcessType
  | face
  | clip
  | yolo
  | all
  deriving DecidableEq, Repr

/-- Outside-world outcomes for one media item of the extraction loop.
fileExists models the os.path.exists check (tasks.py 258). Each branch
outcome is an Except: error stands for an exception raised inside that
branch (the capability wrappers swallow their own model errors, but the
database calls of the branch can raise, and the per-item handler of
tasks.py 402-405 catches anything raised in the item and rolls it back).
clipResult carries the get_image_embedding value, which is an Option
(clip_service.py 62-91 returns None on failure); faceResult the detected
face encodings; yoloResult the detected object labels. -/
structure CapOracle (α : Type) where
  fileExists : Bool
  clipResult : Except Unit (Option (List α))
  faceResult : Except Unit (List (List α))
  yoloResult : Except Unit (List String)
  deriving Repr

/-- The CLIP branch (tasks.py 264-291): run only when the process type
selects it and clip_processed is false; the embedding is stored when the
wrapper returned one, and clip_processed is set true even when it returned
None. Tag bookkeeping (tasks.py 272-289) touches only the tag tables and
is elided. -/
def clipBranch {α : Type} (ptype : ProcessType) (m : MediaAi α)
    (o : CapOracle α) : Except Unit (MediaAi α) :=
  if (ptype == .clip || ptype == .all) && !m.clipProcessed then
    match o.clipResult with
    | .error e => .error e
    | .ok none => .ok { m with clipProcessed := true }
    | .ok (some emb) =>
        .ok { m with clipEmbedding := some emb, clipProcessed := true }
  else .ok m

/-- The face branch (tasks.py 294-338): run only when the process type
selects it, face_processed is false and the media is a photo; inserts one
Face row per detected face and sets face_processed. Person matching only
chooses the person id each new Face row points at and is elided here (the
merge claims model persons separately). -/
def faceBranch {α : Type} (ptype : ProcessType) (m : MediaAi α)
    (o : CapOracle α) : Except Unit (MediaAi α × List (List α)) :=
  if (ptype == .face || ptype == .all) && !m.faceProcessed &&
      m.mediaType == .photo then
    match o.faceResult with
    | .error e => .error e
    | .ok encs => .ok ({ m with faceProcessed := true }, encs)
  else .ok (m, [])

/-- The YOLO branch (tasks.py 341-388): run only when the process type
selects it, yolo_processed is false and the media is a photo; stores the
detections when the list is nonempty and sets yolo_processed. Tag
bookkeeping is elided as in the CLIP branch. -/
def yoloBranch {α : Type} (ptype : ProcessType) (m : MediaAi α)
    (o : CapOracle α) : Except Unit (MediaAi α) :=
  if (ptype == .yolo || ptype == .all) && !m.yoloProcessed &&
      m.mediaType == .photo then
    match o.yoloResult with
    | .error e => .error e
    | .ok dets =>
        if dets.isEmpty then .ok { m with yoloProcessed := true }
        else .ok { m with yoloDetections := some dets,
                          yoloProcessed := true }
  else .ok m

/-- The effect of one extraction item: the resulting Media row, the Face
rows inserted, and whether the item committed (processed += 1) or failed
(failed += 1). -/
structure ItemEffect (α : Type) where
  media : MediaAi α
  newFaces : List (List α)
  committed : Bool
  deriving DecidableEq, Repr

/-- One media item of the extraction loop (tasks.py 254-405): a missing
file fails the item (258-261); otherwise the three capability branches run
in order inside one transaction committed at tasks.py 390, so an exception
anywhere in the item rolls back every change of the item (402-405) and the
stored row is unchanged. -/
def processOneMedia {α : Type} (ptype : ProcessType) (m : MediaAi α)
    (o : CapOracle α) : ItemEffect α :=
  if !o.fileExists then { media := m, newFaces := [], committed := false }
  else
    match clipBranch ptype m o with
    | .error _ => { media := m, newFaces := [], committed := false }
    | .ok m1 =>
      match faceBranch ptype m1 o with
      | .error _ => { media := m, newFaces := [], committed := false }
      | .ok (m2, faces) =>
        match yoloBranch ptype m2 o with
        | .error _ => { media := m, newFaces := [], committed := false }
        | .ok m3 => { media := m3, newFaces := faces, committed := true }

/-- Person row (models.py 222-251), restricted to the fields the merge
claims speak about. -/
structure Person where
  id : Nat
  ownerId : Nat
  faceCount : Nat
  deriving DecidableEq, Repr

/-- Face row (models.py 254-285), restricted to the weak person
reference. -/
structure FaceRow where
  id : Nat
  personId : Option Nat
  deriving DecidableEq, Repr

/-- The store part visible to the people routes. -/
structure PeopleDb where
  persons : List Person
  faces : List FaceRow
  deriving DecidableEq, Repr

/-- One source person of the merge loop (people.py 251-265): a source equal
to the target is skipped; otherwise every Face row pointing at the source
is repointed at the target, the source face count joins the running total,
and the source row is deleted. -/
def mergeStep (targetId : Nat) (st : PeopleDb × Nat) (s : Person) :
    PeopleDb × Nat :=
  if s.id = targetId then st
  else
    ({ persons := st.1.persons.filter (fun p => p.id ≠ s.id),
       faces := st.1.faces.map (fun f =>
         if f.personId = some s.id then { f with personId := some targetId }
         else f) },
     st.2 + s.faceCount)

/-- POST /people/merge (people.py 212-272): resolve the target person of
this owner (220-232), resolve the source people and require one row per
requested id (235-247), fold the merge step over them (249-265), then add
the moved total into the target face count (267-268). -/
def merge_people (db : PeopleDb) (uid : Nat) (targetId : Nat)
    (sourceIds : List Nat) : Except String PeopleDb :=
  match db.persons.find? (fun p => p.id == targetId && p.ownerId == uid) with
  | none => .error "Target person not found"
  | some target =>
    let sourcePeople := db.persons.filter
      (fun p => sourceIds.contains p.id && p.ownerId == uid)
    if sourcePeople.length ≠ sourceIds.length then
      .error "Some source people not found"
    else
      let r := sourcePeople.foldl (mergeStep target.id) (db, 0)
      .ok { r.1 with persons := r.1.persons.map (fun p =>
        if p.id = target.id then { p with faceCount := p.faceCount + r.2 }
        else p) }

/-! Helper lemmas about the extraction-loop job counters. -/

/-- The last committed state of the per-item loop: status completed, the
counters extended by one unit per item kept in processed plus failed. -/
theorem aiLoopFinal_eq :
    ∀ (items : List Bool) (j : ProcessingJob) (p f : Nat),
      ∃ P F, aiLoopFinal j p f items =
          { j with status := .completed, processedItems := P,
                   failedItems := F } ∧
        P + F = p + f + items.length := by
  intro items
  induction items with
  | nil =>
      intro j p f
      exact ⟨p, f, rfl, by simp⟩
  | cons b rest ih =>
      intro j p f
      cases b with
      | true =>
          obtain ⟨P, F, h1, h2⟩ :=
            ih { j with processedItems := p + 1 } (p + 1) f
          exact ⟨P, F, h1, by simp only [List.length_cons]; omega⟩
      | false =>
          obtain ⟨P, F, h1, h2⟩ := ih j p (f + 1)
          exact ⟨P, F, h1, by simp only [List.length_cons]; omega⟩

/-- Closed form of the final job row of a process_ai_features run. -/
theorem process_ai_features_final (job : ProcessingJob) (items : List Bool) :
    ∃ P F, process_ai_features job items =
        { job with status := .completed, totalItems := items.length,
                   processedItems := P, failedItems := F } ∧
      P + F = items.length := by
  obtain ⟨P, F, h1, h2⟩ := aiLoopFinal_eq items
    { job with status := .running, totalItems := items.length } 0 0
  exact ⟨P, F, h1, by omega⟩

/-- Each scan-loop step adds exactly one to processed plus failed. -/
theorem scanStep_counter (hashFn : String → String) (uid : Nat)
    (st : List MediaRow × Nat × Nat) (g : ScanFile) :
    (scanStep hashFn uid st g).2.1 + (scanStep hashFn uid st g).2.2 =
      st.2.1 + st.2.2 + 1 := by
  obtain ⟨db, p, f⟩ := st
  simp only [scanStep]
  split
  · dsimp only
    omega
  · split
    · dsimp only
      omega
    · split
      · dsimp only
        omega
      · dsimp only
        omega

/-- The scan loop adds exactly one unit to processed plus failed per
file. -/
theorem scanLoop_counter_sum (hashFn : String → String) (uid : Nat) :
    ∀ (files : List ScanFile) (st : List MediaRow × Nat × Nat),
      (files.foldl (scanStep hashFn uid) st).2.1 +
          (files.foldl (scanStep hashFn uid) st).2.2 =
        st.2.1 + st.2.2 + files.length := by
  intro files
  induction files with
  | nil => intro st; simp
  | cons g rest ih =>
      intro st
      rw [List.foldl_cons]
      have h1 := ih (scanStep hashFn uid st g)
      have h2 := scanStep_counter hashFn uid st g
      simp only [List.length_cons]
      omega

/-- C1. As stated the claim fails (see the counterexample): processedItems
counts only items whose per-item try block committed, while per-item
failures are counted in failedItems alone. Amended: every run of
scan_and_index_media and of process_ai_features ends with status
completed, totalItems equal to the number of enumerated items, and
processedItems plus failedItems equal to totalItems; processedItems alone
equals totalItems only when no item failed. -/
theorem C1_completed_jobs_counters (job : ProcessingJob) (items : List Bool)
    (hashFn : String → String) (uid : Nat) (db : List MediaRow)
    (files : List ScanFile) :
    (process_ai_features job items).status = .completed ∧
    (process_ai_features job items).totalItems = items.length ∧
    (process_ai_features job items).processedItems +
        (process_ai_features job items).failedItems =
      (process_ai_features job items).totalItems ∧
    (scan_and_index_media hashFn uid job db files).2.status = .completed ∧
    (scan_and_index_media hashFn uid job db files).2.totalItems =
      files.length ∧
    (scan_and_index_media hashFn uid job db files).2.processedItems +
        (scan_and_index_media hashFn uid job db files).2.failedItems =
      (scan_and_index_media hashFn uid job db files).2.totalItems := by
  obtain ⟨P, F, h1, h2⟩ := process_ai_features_final job items
  refine ⟨by rw [h1], by rw [h1], by rw [h1]; simpa using h2, rfl, rfl, ?_⟩
  show (scanLoop hashFn uid db files).2.1 +
      (scanLoop hashFn uid db files).2.2 = files.length
  simpa [scanLoop] using scanLoop_counter_sum hashFn uid files (db, 0, 0)

/-- C1, counterexample to the claim as stated: a run over a single item
whose processing raises ends completed with processedItems 0 and
totalItems 1, so completion does not imply processedItems equal to
totalItems. -/
theorem C1_counterexample :
    (process_ai_features (newJob 0 "clip_embedding") [false]).status =
        .completed ∧
    ¬((process_ai_features (newJob 0 "clip_embedding") [false]).processedItems =
        (process_ai_features (newJob 0 "clip_embedding") [false]).totalItems) := by
  decide

/-- C2. As stated the claim fails (see the counterexample): only the scan
endpoint checks for an active job. Amended: exclusivity is enforced for
jobType scan alone — trigger_scan rejects with the already-running error
whenever a pending or running scan exists for the user and creates no row,
while the face, clip and yolo endpoints append a fresh pending job
unconditionally (their settings toggle permitting), even while a job of
the same type is pending or running for the same user. -/
theorem C2_exclusivity_scan_only (db : List ProcessingJob) (uid : Nat)
    (hscan : hasActiveJob db uid "scan" = true) :
    trigger_scan db uid true = .error "A scan is already in progress" ∧
    trigger_face_processing db uid true =
      .ok (db ++ [newJob uid "face_recognition"]) ∧
    trigger_clip_processing db uid true =
      .ok (db ++ [newJob uid "clip_embedding"]) ∧
    trigger_yolo_processing db uid true =
      .ok (db ++ [newJob uid "yolo_detection"]) := by
  refine ⟨?_, rfl, rfl, rfl⟩
  simp [trigger_scan, hscan]

/-- C2, witness: a store holding one pending job of every type for user 0
satisfies the hypothesis, and the amended theorem applies to it. -/
theorem C2_exclusivity_scan_only_witness :
    hasActiveJob [newJob 0 "scan", newJob 0 "face_recognition",
        newJob 0 "clip_embedding", newJob 0 "yolo_detection"] 0 "scan" =
      true ∧
    trigger_scan [newJob 0 "scan", newJob 0 "face_recognition",
        newJob 0 "clip_embedding", newJob 0 "yolo_detection"] 0 true =
      .error "A scan is already in progress" :=
  ⟨by decide,
   (C2_exclusivity_scan_only [newJob 0 "scan", newJob 0 "face_recognition",
      newJob 0 "clip_embedding", newJob 0 "yolo_detection"] 0 (by decide)).1⟩

/-- C2, counterexample to the claim as stated: with a pending
face_recognition job for user 0 already in the store, the face endpoint
accepts the request and appends a second row instead of rejecting it. -/
theorem C2_counterexample :
    hasActiveJob [newJob 0 "face_recognition"] 0 "face_recognition" =
      true ∧
    trigger_face_processing [newJob 0 "face_recognition"] 0 true =
      .ok [newJob 0 "face_recognition", newJob 0 "face_recognition"] :=
  ⟨by decide, rfl⟩

/-- Monotone processed counters along the committed states of the per-item
loop, starting from any row whose processedItems equals the running
counter. -/
theorem aiLoopStates_chain :
    ∀ (items : List Bool) (j : ProcessingJob) (p f : Nat),
      j.processedItems = p →
      List.Chain' (fun a b => a.processedItems ≤ b.processedItems)
        (j :: aiLoopStates j p f items) := by
  intro items
  induction items with
  | nil =>
      intro j p f hj
      simp [aiLoopStates, hj]
  | cons b rest ih =>
      intro j p f hj
      cases b with
      | true =>
          have h := ih { j with processedItems := p + 1 } (p + 1) f rfl
          refine List.chain'_cons.mpr ⟨by simp [hj], h⟩
      | false => exact ih j p (f + 1) hj

/-- Every committed state of the per-item loop keeps totalItems unchanged
and processedItems at most the starting counter plus the number of
items. -/
theorem aiLoopStates_bounds :
    ∀ (items : List Bool) (j : ProcessingJob) (p f : Nat),
      ∀ s ∈ aiLoopStates j p f items,
        s.totalItems = j.totalItems ∧
          s.processedItems ≤ p + items.length := by
  intro items
  induction items with
  | nil =>
      intro j p f s hs
      simp only [aiLoopStates, List.mem_singleton] at hs
      subst hs
      exact ⟨rfl, by simp⟩
  | cons b rest ih =>
      intro j p f s hs
      cases b with
      | true =>
          simp only [aiLoopStates, List.mem_cons] at hs
          rcases hs with h | h
          · subst h
            constructor
            · rfl
            · simp only [List.length_cons]; omega
          · obtain ⟨h1, h2⟩ := ih { j with processedItems := p + 1 } (p + 1) f s h
            exact ⟨h1, by simp only [List.length_cons]; omega⟩
      | false =>
          obtain ⟨h1, h2⟩ := ih j p (f + 1) s hs
          exact ⟨h1, by simp only [List.length_cons]; omega⟩

/-- C9. As stated the claim fails (see the counterexample): workers never
observe cancellation. Amended: the cancel endpoint itself treats
completed, failed and cancelled as terminal — it rejects them and never
rewrites their status — but cancellation is not terminal for the pipeline:
a worker run on any job, a cancelled one included, unconditionally sets
the status to running and finally to completed; within such a run, started
with processedItems zero, processedItems is monotonically non-decreasing
along the committed states and never exceeds totalItems. -/
theorem C9_terminal_statuses (job : ProcessingJob) (items : List Bool)
    (hterm : job.status = .completed ∨ job.status = .failed ∨
      job.status = .cancelled)
    (hzero : job.processedItems = 0) :
    cancel_job job = .error "Job cannot be cancelled" ∧
    (process_ai_features job items).status = .completed ∧
    List.Chain' (fun a b => a.processedItems ≤ b.processedItems)
      (aiTrace job items) ∧
    (∀ s ∈ aiTrace job items, s.processedItems ≤ s.totalItems ∨ s = job) := by
  refine ⟨?_, ?_, ?_, ?_⟩
  · rcases hterm with h | h | h <;> simp [cancel_job, h]
  · obtain ⟨P, F, h1, _⟩ := process_ai_features_final job items
    rw [h1]
  · refine List.chain'_cons.mpr ⟨by simp [hzero], ?_⟩
    exact aiLoopStates_chain items
      { job with status := .running, totalItems := items.length } 0 0 hzero
  · intro s hs
    simp only [aiTrace, List.mem_cons] at hs
    rcases hs with h | h | h
    · exact Or.inr h
    · subst h; exact Or.inl (by simp [hzero])
    · obtain ⟨h1, h2⟩ := aiLoopStates_bounds items
        { job with status := .running, totalItems := items.length } 0 0 s h
      exact Or.inl (by rw [h1]; simpa using h2)

/-- C9, witness: a cancelled job with zero progress satisfies both
hypotheses, and the amended theorem applies to it. -/
theorem C9_terminal_statuses_witness :
    ({ newJob 0 "clip_embedding" with status := .cancelled }.status =
        .cancelled ∧
      { newJob 0 "clip_embedding" with
          status := .cancelled }.processedItems = 0) ∧
    cancel_job { newJob 0 "clip_embedding" with status := .cancelled } =
      .error "Job cannot be cancelled" :=
  ⟨⟨rfl, rfl⟩,
   (C9_terminal_statuses
      { newJob 0 "clip_embedding" with status := .cancelled } [true, false]
      (Or.inr (Or.inr rfl)) rfl).1⟩

/-- C9, counterexample to the claim as stated: a job already cancelled is
picked up by the worker, whose run ends by overwriting the status with
completed, so cancelled is not terminal. -/
theorem C9_counterexample :
    (process_ai_features
        { newJob 0 "clip_embedding" with status := .cancelled }
        [true]).status = .completed := by
  decide

/-- C3. The change detector classifies a path present now but absent from
the store as NEW, a stored path absent now as DELETED — and nothing else:
a path present on both sides is silently dropped, never compared on
(mtime, size), and never yields a MODIFIED or UNCHANGED event, although
the class advertises modified-file detection and defines both change
kinds. The first conjunct evaluates the detector at the failing input (a
path present on both sides with changed mtime and size); the remaining
conjuncts show the NEW and DELETED kinds do work, and that no input
whatsoever produces a MODIFIED or UNCHANGED event. -/
theorem C3_detect_changes_drops_modified :
    detect_changes [("a.jpg", ⟨1, 10⟩)] [("a.jpg", ⟨2, 20⟩)] = [] ∧
    detect_changes [] [("b.jpg", ⟨1, 10⟩)] =
      [{ path := "b.jpg", changeType := .NEW, oldSig := none,
         newSig := some ⟨1, 10⟩ }] ∧
    detect_changes [("c.jpg", ⟨1, 10⟩)] [] =
      [{ path := "c.jpg", changeType := .DELETED, oldSig := some ⟨1, 10⟩,
         newSig := none }] ∧
    (∀ indexed current, ∀ ch ∈ detect_changes indexed current,
      ch.changeType = .NEW ∨ ch.changeType = .DELETED) := by
  refine ⟨by decide, by decide, by decide, ?_⟩
  intro indexed current ch hch
  simp only [detect_changes, List.mem_append, List.mem_map,
    List.mem_filter] at hch
  rcases hch with ⟨c, _, h⟩ | ⟨c, _, h⟩
  · exact Or.inl (by rw [← h])
  · exact Or.inr (by rw [← h])

/-- Each scan-loop step leaves the store unchanged or appends exactly the
freshly indexed row, whose perceptualHash is none. -/
theorem scanStep_db_cases (hashFn : String → String) (uid : Nat)
    (st : List MediaRow × Nat × Nat) (g : ScanFile) :
    (scanStep hashFn uid st g).1 = st.1 ∨
      (scanStep hashFn uid st g).1 =
        st.1 ++ [{ ownerId := uid, originalPath := g.path,
                   fileHash := hashFn g.content, perceptualHash := none,
                   isDeleted := false }] := by
  obtain ⟨db, p, f⟩ := st
  simp only [scanStep]
  split
  · exact Or.inl rfl
  · split
    · exact Or.inl rfl
    · split
      · exact Or.inl rfl
      · exact Or.inr rfl

/-- Rows present after the scan loop either predate it or carry no
perceptual hash. -/
theorem scanLoop_rows (hashFn : String → String) (uid : Nat) :
    ∀ (files : List ScanFile) (st : List MediaRow × Nat × Nat),
      ∀ m ∈ (files.foldl (scanStep hashFn uid) st).1,
        m ∈ st.1 ∨ m.perceptualHash = none := by
  intro files
  induction files with
  | nil => intro st m hm; exact Or.inl hm
  | cons g rest ih =>
      intro st m hm
      rw [List.foldl_cons] at hm
      rcases ih (scanStep hashFn uid st g) m hm with h | h
      · rcases scanStep_db_cases hashFn uid st g with hc | hc
        · rw [hc] at h; exact Or.inl h
        · rw [hc] at h
          rcases List.mem_append.mp h with h1 | h1
          · exact Or.inl h1
          · simp only [List.mem_singleton] at h1
            subst h1
            exact Or.inr rfl
      · exact Or.inr h

/-- C5. As stated the claim fails (see the counterexample): the pipeline
neither computes nor records a perceptual hash — get_perceptual_hash
(processor.py 36-44) is never invoked, process_media_file returns no
perceptual hash, the ORM Media model has no perceptual_hash column and
the scan insert leaves the migration column null. Amended: every Media
row the scan loop creates has a null perceptualHash, and near-duplicates
are indeed never rejected and never auto-merged — a file that raises no
exception is either inserted or skipped, and a skip happens only because
the owner already has a row with the same path or the same exact content
hash, never because of perceptual similarity. -/
theorem C5_no_perceptual_hash (hashFn : String → String) (uid : Nat) :
    (∀ (files : List ScanFile) (db : List MediaRow),
      (∀ m ∈ db, m.perceptualHash = none) →
      ∀ m ∈ (scanLoop hashFn uid db files).1, m.perceptualHash = none) ∧
    (∀ (db : List MediaRow) (p f : Nat) (g : ScanFile),
      g.raisesError = false →
      (scanStep hashFn uid (db, p, f) g).1 =
          db ++ [{ ownerId := uid, originalPath := g.path,
                   fileHash := hashFn g.content, perceptualHash := none,
                   isDeleted := false }] ∨
        ((scanStep hashFn uid (db, p, f) g).1 = db ∧
          ∃ m ∈ db, m.ownerId = uid ∧
            (m.originalPath = g.path ∨ m.fileHash = hashFn g.content))) := by
  constructor
  · intro files db hdb m hm
    rcases scanLoop_rows hashFn uid files (db, 0, 0) m hm with h | h
    · exact hdb m h
    · exact h
  · intro db p f g hraise
    simp only [scanStep]
    split
    · rename_i hpath
      refine Or.inr ⟨rfl, ?_⟩
      simp only [List.any_eq_true, Bool.and_eq_true, beq_iff_eq] at hpath
      obtain ⟨m, hm, h1, h2⟩ := hpath
      exact ⟨m, hm, h1, Or.inl h2⟩
    · split
      · rename_i hr
        rw [hraise] at hr
        exact absurd hr (by simp)
      · split
        · rename_i hhash
          refine Or.inr ⟨rfl, ?_⟩
          simp only [List.any_eq_true, Bool.and_eq_true, beq_iff_eq] at hhash
          obtain ⟨m, hm, h1, h2⟩ := hhash
          exact ⟨m, hm, h1, Or.inr h2⟩
        · exact Or.inl rfl

/-- C5, witness: the empty store satisfies both hypotheses, and the
amended theorem applies to it and to a concrete non-raising file. -/
theorem C5_no_perceptual_hash_witness :
    (∀ m ∈ ([] : List MediaRow), m.perceptualHash = none) ∧
    (∀ m ∈ (scanLoop id 0 [] [⟨"a.jpg", "bytes", false⟩]).1,
      m.perceptualHash = none) :=
  ⟨by simp,
   (C5_no_perceptual_hash id 0).1 [⟨"a.jpg", "bytes", false⟩] []
     (by simp)⟩

/-- C5, counterexample to the claim as stated: a freshly ingested file
produces a Media row whose perceptualHash is null, not a recorded
perceptual hash. -/
theorem C5_counterexample :
    (scan_and_index_media id 0 (newJob 0 "scan") []
        [⟨"a.jpg", "bytes", false⟩]).1 =
      [{ ownerId := 0, originalPath := "a.jpg", fileHash := "bytes",
         perceptualHash := none, isDeleted := false }] ∧
    ∀ m ∈ (scan_and_index_media id 0 (newJob 0 "scan") []
        [⟨"a.jpg", "bytes", false⟩]).1, m.perceptualHash = none := by
  refine ⟨rfl, by decide⟩

/-- One scan-loop step preserves the dedup invariant: a row is inserted
only after the hash-duplicate query came back empty. -/
theorem UniqueOwnerHash_scanStep (hashFn : String → String) (uid : Nat)
    (st : List MediaRow × Nat × Nat) (g : ScanFile)
    (h : UniqueOwnerHash st.1) :
    UniqueOwnerHash (scanStep hashFn uid st g).1 := by
  obtain ⟨db, p, f⟩ := st
  simp only [scanStep]
  split
  · exact h
  · split
    · exact h
    · split
      · exact h
      · rename_i hnodup
        simp only [List.any_eq_true, Bool.and_eq_true, beq_iff_eq,
          not_exists, not_and] at hnodup
        dsimp only
        unfold UniqueOwnerHash liveRows at h ⊢
        rw [List.filter_append, List.pairwise_append]
        refine ⟨h, ?_, ?_⟩
        · simp [List.filter_cons]
        · intro a ha b hb
          simp only [List.filter_cons, List.filter_nil] at hb
          simp only [Bool.not_false, if_pos] at hb
          simp only [List.mem_singleton] at hb
          subst hb
          intro hcon
          obtain ⟨h1, h2⟩ := hcon
          have ha' := List.mem_of_mem_filter ha
          exact (hnodup a ha' h1) h2

/-- The whole scan loop preserves the dedup invariant. -/
theorem UniqueOwnerHash_scanLoop (hashFn : String → String) (uid : Nat) :
    ∀ (files : List ScanFile) (st : List MediaRow × Nat × Nat),
      UniqueOwnerHash st.1 →
      UniqueOwnerHash (files.foldl (scanStep hashFn uid) st).1 := by
  intro files
  induction files with
  | nil => intro st h; exact h
  | cons g rest ih =>
      intro st h
      rw [List.foldl_cons]
      exact ih (scanStep hashFn uid st g)
        (UniqueOwnerHash_scanStep hashFn uid st g h)

/-- C4. Confirmed. The scan pipeline checks the owner-and-hash duplicate
query before every insert (tasks.py 118-127), so a file whose exact
content hash already exists for the owner adds no row, and the invariant
that no two non-deleted Media rows of one owner share a fileHash is
preserved by every ingestion sequence. Two files with identical bytes
have identical hashes because the digest is a function of the bytes. -/
theorem C4_dedup_unique_owner_hash (hashFn : String → String) (uid : Nat) :
    (∀ (job : ProcessingJob) (db : List MediaRow) (files : List ScanFile),
      UniqueOwnerHash db →
      UniqueOwnerHash (scan_and_index_media hashFn uid job db files).1) ∧
    (∀ (db : List MediaRow) (p f : Nat) (g : ScanFile),
      db.any (fun m =>
          m.ownerId == uid && m.fileHash == hashFn g.content) = true →
      (scanStep hashFn uid (db, p, f) g).1 = db) := by
  constructor
  · intro job db files hdb
    exact UniqueOwnerHash_scanLoop hashFn uid files (db, 0, 0) hdb
  · intro db p f g hdup
    simp only [scanStep, hdup]
    split
    · rfl
    · split
      · rfl
      · rfl

/-- C4, witness: starting from the empty store (trivially satisfying the
invariant), ingesting two files with identical bytes keeps the invariant;
and a store already holding the hash absorbs the duplicate without a new
row. -/
theorem C4_dedup_unique_owner_hash_witness :
    UniqueOwnerHash [] ∧
    UniqueOwnerHash (scan_and_index_media id 0 (newJob 0 "scan") []
      [⟨"a.jpg", "samebytes", false⟩, ⟨"b.jpg", "samebytes", false⟩]).1 ∧
    (scanStep id 0
        ([{ ownerId := 0, originalPath := "a.jpg", fileHash := "samebytes",
            perceptualHash := none, isDeleted := false }], 1, 0)
        ⟨"b.jpg", "samebytes", false⟩).1 =
      [{ ownerId := 0, originalPath := "a.jpg", fileHash := "samebytes",
         perceptualHash := none, isDeleted := false }] :=
  ⟨List.Pairwise.nil,
   (C4_dedup_unique_owner_hash id 0).1 (newJob 0 "scan") []
     [⟨"a.jpg", "samebytes", false⟩, ⟨"b.jpg", "samebytes", false⟩]
     List.Pairwise.nil,
   (C4_dedup_unique_owner_hash id 0).2
     [{ ownerId := 0, originalPath := "a.jpg", fileHash := "samebytes",
        perceptualHash := none, isDeleted := false }] 1 0
     ⟨"b.jpg", "samebytes", false⟩ (by decide)⟩

/-- A CLIP branch whose flag is already set does nothing, whatever the
oracle says. -/
theorem clipBranch_skipped {α : Type} (ptype : ProcessType) (m : MediaAi α)
    (o : CapOracle α) (h : m.clipProcessed = true) :
    clipBranch ptype m o = .ok m := by
  unfold clipBranch
  rw [if_neg]
  simp [h]

/-- A face branch whose flag is already set does nothing, whatever the
oracle says. -/
theorem faceBranch_skipped {α : Type} (ptype : ProcessType) (m : MediaAi α)
    (o : CapOracle α) (h : m.faceProcessed = true) :
    faceBranch ptype m o = .ok (m, []) := by
  unfold faceBranch
  rw [if_neg]
  simp [h]

/-- A YOLO branch whose flag is already set does nothing, whatever the
oracle says. -/
theorem yoloBranch_skipped {α : Type} (ptype : ProcessType) (m : MediaAi α)
    (o : CapOracle α) (h : m.yoloProcessed = true) :
    yoloBranch ptype m o = .ok m := by
  unfold yoloBranch
  rw [if_neg]
  simp [h]

/-- A successful CLIP branch touches only the clip fields, and leaves the
clip flag true whenever the process type selected the capability. -/
theorem clipBranch_ok {α : Type} (ptype : ProcessType) (m : MediaAi α)
    (o : CapOracle α) (m1 : MediaAi α) (h : clipBranch ptype m o = .ok m1) :
    m1.faceProcessed = m.faceProcessed ∧
    m1.yoloProcessed = m.yoloProcessed ∧
    m1.yoloDetections = m.yoloDetections ∧
    m1.mediaType = m.mediaType ∧
    ((ptype = .clip ∨ ptype = .all) → m1.clipProcessed = true) := by
  unfold clipBranch at h
  by_cases hc : ((ptype == .clip || ptype == .all) && !m.clipProcessed) = true
  · rw [if_pos hc] at h
    cases hres : o.clipResult with
    | error e => rw [hres] at h; cases h
    | ok v =>
      rw [hres] at h
      cases v with
      | none =>
          injection h with h
          subst h
          exact ⟨rfl, rfl, rfl, rfl, fun _ => rfl⟩
      | some emb =>
          injection h with h
          subst h
          exact ⟨rfl, rfl, rfl, rfl, fun _ => rfl⟩
  · rw [if_neg hc] at h
    injection h with h
    subst h
    refine ⟨rfl, rfl, rfl, rfl, ?_⟩
    intro hp
    rcases hp with hp | hp <;> subst hp <;> simpa using hc

/-- A successful face branch touches only the face fields, and leaves the
face flag true whenever the process type selected the capability and the
media is a photo. -/
theorem faceBranch_ok {α : Type} (ptype : ProcessType) (m : MediaAi α)
    (o : CapOracle α) (m2 : MediaAi α) (faces : List (List α))
    (h : faceBranch ptype m o = .ok (m2, faces)) :
    m2.clipProcessed = m.clipProcessed ∧
    m2.clipEmbedding = m.clipEmbedding ∧
    m2.yoloProcessed = m.yoloProcessed ∧
    m2.yoloDetections = m.yoloDetections ∧
    m2.mediaType = m.mediaType ∧
    ((ptype = .face ∨ ptype = .all) → m.mediaType = .photo →
      m2.faceProcessed = true) := by
  unfold faceBranch at h
  by_cases hc : ((ptype == .face || ptype == .all) && !m.faceProcessed &&
      m.mediaType == MediaType.photo) = true
  · rw [if_pos hc] at h
    cases hres : o.faceResult with
    | error e => rw [hres] at h; cases h
    | ok encs =>
        rw [hres] at h
        injection h with h
        injection h with h1 h2
        subst h1
        exact ⟨rfl, rfl, rfl, rfl, rfl, fun _ _ => rfl⟩
  · rw [if_neg hc] at h
    injection h with h
    injection h with h1 h2
    subst h1
    refine ⟨rfl, rfl, rfl, rfl, rfl, ?_⟩
    intro hp hphoto
    rcases hp with hp | hp <;> subst hp <;>
      simpa [hphoto] using hc

/-- A successful YOLO branch touches only the yolo fields, and leaves the
yolo flag true whenever the process type selected the capability and the
media is a photo. -/
theorem yoloBranch_ok {α : Type} (ptype : ProcessType) (m : MediaAi α)
    (o : CapOracle α) (m3 : MediaAi α) (h : yoloBranch ptype m o = .ok m3) :
    m3.clipProcessed = m.clipProcessed ∧
    m3.clipEmbedding = m.clipEmbedding ∧
    m3.faceProcessed = m.faceProcessed ∧
    m3.mediaType = m.mediaType ∧
    ((ptype = .yolo ∨ ptype = .all) → m.mediaType = .photo →
      m3.yoloProcessed = true) := by
  unfold yoloBranch at h
  by_cases hc : ((ptype == .yolo || ptype == .all) && !m.yoloProcessed &&
      m.mediaType == MediaType.photo) = true
  · rw [if_pos hc] at h
    cases hres : o.yoloResult with
    | error e => rw [hres] at h; cases h
    | ok dets =>
        rw [hres] at h
        dsimp only at h
        by_cases hd : dets.isEmpty = true
        · rw [if_pos hd] at h
          injection h with h
          subst h
          exact ⟨rfl, rfl, rfl, rfl, fun _ _ => rfl⟩
        · rw [if_neg hd] at h
          injection h with h
          subst h
          exact ⟨rfl, rfl, rfl, rfl, fun _ _ => rfl⟩
  · rw [if_neg hc] at h
    injection h with h
    subst h
    refine ⟨rfl, rfl, rfl, rfl, ?_⟩
    intro hp hphoto
    rcases hp with hp | hp <;> subst hp <;>
      simpa [hphoto] using hc


/-- A committed extraction item decomposes into three successful branches
run in order, the file existing. -/
theorem processOneMedia_committed {α : Type} (ptype : ProcessType)
    (m : MediaAi α) (o : CapOracle α)
    (hcom : (processOneMedia ptype m o).committed = true) :
    o.fileExists = true ∧
    ∃ m1 m2 faces m3, clipBranch ptype m o = .ok m1 ∧
      faceBranch ptype m1 o = .ok (m2, faces) ∧
      yoloBranch ptype m2 o = .ok m3 ∧
      processOneMedia ptype m o = ⟨m3, faces, true⟩ := by
  refine ⟨?_, ?_⟩
  · cases hfe : o.fileExists with
    | false =>
        rw [processOneMedia, hfe] at hcom
        simp at hcom
    | true => rfl
  · cases hfe : o.fileExists with
    | false =>
        rw [processOneMedia, hfe] at hcom
        simp at hcom
    | true =>
        rw [processOneMedia, hfe] at hcom
        rw [processOneMedia, hfe]
        simp only [Bool.not_true, Bool.false_eq_true, if_false] at hcom ⊢
        cases hcb : clipBranch ptype m o with
        | error e => rw [hcb] at hcom; simp at hcom
        | ok m1 =>
            rw [hcb] at hcom
            dsimp only at hcom ⊢
            cases hfb : faceBranch ptype m1 o with
            | error e => rw [hfb] at hcom; simp at hcom
            | ok pr =>
                obtain ⟨m2, faces⟩ := pr
                rw [hfb] at hcom
                dsimp only at hcom ⊢
                cases hyb : yoloBranch ptype m2 o with
                | error e => rw [hyb] at hcom; simp at hcom
                | ok m3 =>
                    rw [hyb] at hcom
                    dsimp only at hcom ⊢
                    exact ⟨m1, m2, faces, m3, rfl, hfb, hyb, rfl⟩

/-- C7. As stated the claim fails (see the counterexample): the three
capability branches of one item run inside a single transaction committed
only after all of them (tasks.py 390), so an exception in a later branch
rolls back an earlier capability's success — the flag is not set
regardless of the other capabilities' outcomes. Amended: a capability
whose completion flag is already true is never re-invoked — the item's
outcome does not depend on that capability's oracle result; a run
restricted to one capability leaves the other capabilities' flags and
persisted results unchanged and inserts no Face rows for them; and when
the item commits (no branch of the item raised), every capability
selected by the process type ends with its completion flag true. -/
theorem C7_capability_flag_independence {α : Type} (ptype : ProcessType)
    (m : MediaAi α) (fe : Bool) (cr cr' : Except Unit (Option (List α)))
    (fr fr' : Except Unit (List (List α)))
    (yr yr' : Except Unit (List String)) :
    (m.clipProcessed = true →
      processOneMedia ptype m ⟨fe, cr, fr, yr⟩ =
        processOneMedia ptype m ⟨fe, cr', fr, yr⟩) ∧
    (m.faceProcessed = true →
      processOneMedia ptype m ⟨fe, cr, fr, yr⟩ =
        processOneMedia ptype m ⟨fe, cr, fr', yr⟩) ∧
    (m.yoloProcessed = true →
      processOneMedia ptype m ⟨fe, cr, fr, yr⟩ =
        processOneMedia ptype m ⟨fe, cr, fr, yr'⟩) ∧
    ((processOneMedia .clip m ⟨fe, cr, fr, yr⟩).media.faceProcessed =
        m.faceProcessed ∧
      (processOneMedia .clip m ⟨fe, cr, fr, yr⟩).media.yoloProcessed =
        m.yoloProcessed ∧
      (processOneMedia .clip m ⟨fe, cr, fr, yr⟩).media.yoloDetections =
        m.yoloDetections ∧
      (processOneMedia .clip m ⟨fe, cr, fr, yr⟩).newFaces = []) ∧
    ((processOneMedia .face m ⟨fe, cr, fr, yr⟩).media.clipProcessed =
        m.clipProcessed ∧
      (processOneMedia .face m ⟨fe, cr, fr, yr⟩).media.clipEmbedding =
        m.clipEmbedding ∧
      (processOneMedia .face m ⟨fe, cr, fr, yr⟩).media.yoloProcessed =
        m.yoloProcessed ∧
      (processOneMedia .face m ⟨fe, cr, fr, yr⟩).media.yoloDetections =
        m.yoloDetections) ∧
    ((processOneMedia .yolo m ⟨fe, cr, fr, yr⟩).media.clipProcessed =
        m.clipProcessed ∧
      (processOneMedia .yolo m ⟨fe, cr, fr, yr⟩).media.clipEmbedding =
        m.clipEmbedding ∧
      (processOneMedia .yolo m ⟨fe, cr, fr, yr⟩).media.faceProcessed =
        m.faceProcessed ∧
      (processOneMedia .yolo m ⟨fe, cr, fr, yr⟩).newFaces = []) ∧
    ((processOneMedia ptype m ⟨fe, cr, fr, yr⟩).committed = true →
      ((ptype = .clip ∨ ptype = .all) →
        (processOneMedia ptype m ⟨fe, cr, fr, yr⟩).media.clipProcessed =
          true) ∧
      ((ptype = .face ∨ ptype = .all) → m.mediaType = .photo →
        (processOneMedia ptype m ⟨fe, cr, fr, yr⟩).media.faceProcessed =
          true) ∧
      ((ptype = .yolo ∨ ptype = .all) → m.mediaType = .photo →
        (processOneMedia ptype m ⟨fe, cr, fr, yr⟩).media.yoloProcessed =
          true)) := by
  refine ⟨?_, ?_, ?_, ?_, ?_, ?_, ?_⟩
  · intro h
    obtain ⟨mt, cp, fp, yp, ce, yd⟩ := m
    dsimp only at h
    subst h
    cases ptype <;> cases fe <;> rfl
  · intro h
    cases fe with
    | false => rfl
    | true =>
        have e0 : clipBranch ptype m (⟨true, cr, fr', yr⟩ : CapOracle α) =
            clipBranch ptype m ⟨true, cr, fr, yr⟩ := rfl
        simp only [processOneMedia]
        rw [e0]
        cases hcb : clipBranch ptype m ⟨true, cr, fr, yr⟩ with
        | error e => rfl
        | ok m1 =>
            have hm1 : m1.faceProcessed = true := by
              rw [(clipBranch_ok ptype m ⟨true, cr, fr, yr⟩ m1 hcb).1, h]
            have e1 := faceBranch_skipped ptype m1
              (⟨true, cr, fr, yr⟩ : CapOracle α) hm1
            have e2 := faceBranch_skipped ptype m1
              (⟨true, cr, fr', yr⟩ : CapOracle α) hm1
            dsimp only
            rw [e1, e2]
            rfl
  · intro h
    cases fe with
    | false => rfl
    | true =>
        have e0 : clipBranch ptype m (⟨true, cr, fr, yr'⟩ : CapOracle α) =
            clipBranch ptype m ⟨true, cr, fr, yr⟩ := rfl
        simp only [processOneMedia]
        rw [e0]
        cases hcb : clipBranch ptype m ⟨true, cr, fr, yr⟩ with
        | error e => rfl
        | ok m1 =>
            have e1 : faceBranch ptype m1
                (⟨true, cr, fr, yr'⟩ : CapOracle α) =
                faceBranch ptype m1 ⟨true, cr, fr, yr⟩ := rfl
            dsimp only
            rw [e1]
            cases hfb : faceBranch ptype m1 ⟨true, cr, fr, yr⟩ with
            | error e => rfl
            | ok pr =>
                obtain ⟨m2, faces⟩ := pr
                have hm2 : m2.yoloProcessed = true := by
                  rw [(faceBranch_ok ptype m1 ⟨true, cr, fr, yr⟩ m2 faces
                    hfb).2.2.1,
                    (clipBranch_ok ptype m ⟨true, cr, fr, yr⟩ m1 hcb).2.1, h]
                have e2 := yoloBranch_skipped ptype m2
                  (⟨true, cr, fr, yr⟩ : CapOracle α) hm2
                have e3 := yoloBranch_skipped ptype m2
                  (⟨true, cr, fr, yr'⟩ : CapOracle α) hm2
                dsimp only
                rw [e2, e3]
  · cases fe with
    | false => exact ⟨rfl, rfl, rfl, rfl⟩
    | true =>
        simp only [processOneMedia]
        cases hcb : clipBranch .clip m ⟨true, cr, fr, yr⟩ with
        | error e => exact ⟨rfl, rfl, rfl, rfl⟩
        | ok m1 =>
            obtain ⟨f1, f2, f3, f4, f5⟩ :=
              clipBranch_ok .clip m ⟨true, cr, fr, yr⟩ m1 hcb
            exact ⟨f1, f2, f3, rfl⟩
  · cases fe with
    | false => exact ⟨rfl, rfl, rfl, rfl⟩
    | true =>
        simp only [processOneMedia]
        have hcb : clipBranch .face m (⟨true, cr, fr, yr⟩ : CapOracle α) =
            .ok m := rfl
        rw [hcb]
        dsimp only
        cases hfb : faceBranch .face m ⟨true, cr, fr, yr⟩ with
        | error e => exact ⟨rfl, rfl, rfl, rfl⟩
        | ok pr =>
            obtain ⟨m2, faces⟩ := pr
            obtain ⟨g1, g2, g3, g4, g5, g6⟩ :=
              faceBranch_ok .face m ⟨true, cr, fr, yr⟩ m2 faces hfb
            exact ⟨g1, g2, g3, g4⟩
  · cases fe with
    | false => exact ⟨rfl, rfl, rfl, rfl⟩
    | true =>
        simp only [processOneMedia]
        have hcb : clipBranch .yolo m (⟨true, cr, fr, yr⟩ : CapOracle α) =
            .ok m := rfl
        have hfb : faceBranch .yolo m (⟨true, cr, fr, yr⟩ : CapOracle α) =
            .ok (m, []) := rfl
        rw [hcb]
        dsimp only
        rw [hfb]
        dsimp only
        cases hyb : yoloBranch .yolo m ⟨true, cr, fr, yr⟩ with
        | error e => exact ⟨rfl, rfl, rfl, rfl⟩
        | ok m3 =>
            obtain ⟨y1, y2, y3, y4, y5⟩ :=
              yoloBranch_ok .yolo m ⟨true, cr, fr, yr⟩ m3 hyb
            exact ⟨y1, y2, y3, rfl⟩
  · intro hcom
    obtain ⟨hfe, m1, m2, faces, m3, hcb, hfb, hyb, heq⟩ :=
      processOneMedia_committed ptype m ⟨fe, cr, fr, yr⟩ hcom
    obtain ⟨c1, c2, c3, c4, c5⟩ :=
      clipBranch_ok ptype m ⟨fe, cr, fr, yr⟩ m1 hcb
    obtain ⟨g1, g2, g3, g4, g5, g6⟩ :=
      faceBranch_ok ptype m1 ⟨fe, cr, fr, yr⟩ m2 faces hfb
    obtain ⟨y1, y2, y3, y4, y5⟩ :=
      yoloBranch_ok ptype m2 ⟨fe, cr, fr, yr⟩ m3 hyb
    rw [heq]
    refine ⟨?_, ?_, ?_⟩
    · intro hp
      show m3.clipProcessed = true
      rw [y1, g1, c5 hp]
    · intro hp hphoto
      show m3.faceProcessed = true
      rw [y3]
      exact g6 hp (by rw [c4, hphoto])
    · intro hp hphoto
      show m3.yoloProcessed = true
      exact y5 hp (by rw [g5, c4, hphoto])

/-- C7, witness: a photo whose clip flag is already set yields the same
outcome whatever the clip oracle returns, and a committed all-capability
run on a fresh photo sets all three flags. -/
theorem C7_capability_flag_independence_witness :
    ((⟨.photo, true, false, false, some [1], none⟩ : MediaAi ℤ).clipProcessed
        = true ∧
      processOneMedia .clip
          (⟨.photo, true, false, false, some [1], none⟩ : MediaAi ℤ)
          ⟨true, .ok (some [2]), .ok [], .ok []⟩ =
        processOneMedia .clip ⟨.photo, true, false, false, some [1], none⟩
          ⟨true, .error (), .ok [], .ok []⟩) ∧
    ((processOneMedia .all
          (⟨.photo, false, false, false, none, none⟩ : MediaAi ℤ)
          ⟨true, .ok (some [1]), .ok [[2]], .ok ["cat"]⟩).committed = true ∧
      (processOneMedia .all
          (⟨.photo, false, false, false, none, none⟩ : MediaAi ℤ)
          ⟨true, .ok (some [1]), .ok [[2]], .ok ["cat"]⟩).media.clipProcessed
        = true) :=
  ⟨⟨rfl,
    (C7_capability_flag_independence .clip
      ⟨.photo, true, false, false, some [1], none⟩ true (.ok (some [2]))
      (.error ()) (.ok []) (.ok []) (.ok []) (.ok [])).1 rfl⟩,
   ⟨rfl,
    ((C7_capability_flag_independence .all
        ⟨.photo, false, false, false, none, none⟩ true (.ok (some [1]))
        (.ok (some [1])) (.ok [[2]]) (.ok [[2]]) (.ok ["cat"])
        (.ok ["cat"])).2.2.2.2.2.2 rfl).1 (Or.inr rfl)⟩⟩

/-- C7, counterexample to the claim as stated: in an all-capability run
the CLIP branch succeeds with an embedding, the face branch raises, and
the rollback discards the whole item — the stored row still has
clipProcessed false, so a capability's success does not set its flag
regardless of the other capabilities' outcomes. -/
theorem C7_counterexample :
    (⟨true, .ok (some [1]), .error (), .ok []⟩ : CapOracle ℤ).clipResult =
      .ok (some [1]) ∧
    processOneMedia .all (⟨.photo, false, false, false, none, none⟩ : MediaAi ℤ)
        ⟨true, .ok (some [1]), .error (), .ok []⟩ =
      ⟨⟨.photo, false, false, false, none, none⟩, [], false⟩ :=
  ⟨rfl, rfl⟩


/-- find? returns the unique element satisfying a predicate. -/
theorem find?_eq_some_of_unique {β : Type} (pred : β → Bool) :
    ∀ (l : List β) (x : β), x ∈ l → pred x = true →
      (∀ y ∈ l, pred y = true → y = x) → l.find? pred = some x := by
  intro l
  induction l with
  | nil => intro x hx; cases hx
  | cons a t ih =>
      intro x hx hpx huniq
      by_cases ha : pred a = true
      · rw [List.find?_cons_of_pos t ha, huniq a (List.mem_cons_self a t) ha]
      · rw [List.find?_cons_of_neg t ha]
        have hxt : x ∈ t := by
          rcases List.mem_cons.mp hx with h | h
          · subst h; exact absurd hpx ha
          · exact h
        exact ih x hxt hpx
          (fun y hy hpy => huniq y (List.mem_cons_of_mem a hy) hpy)

/-- The filter of a duplicate-free list with a unique satisfying element
is that singleton. -/
theorem filter_eq_singleton_of_unique {β : Type} (pred : β → Bool) :
    ∀ (l : List β), l.Nodup → ∀ x, x ∈ l → pred x = true →
      (∀ y ∈ l, pred y = true → y = x) → l.filter pred = [x] := by
  intro l
  induction l with
  | nil => intro _ x hx; cases hx
  | cons a t ih =>
      intro hnd x hx hpx huniq
      obtain ⟨hat, hndt⟩ := List.nodup_cons.mp hnd
      by_cases ha : pred a = true
      · have hax : a = x := huniq a (List.mem_cons_self a t) ha
        subst hax
        rw [List.filter_cons_of_pos ha]
        have ht : t.filter pred = [] := by
          rw [List.filter_eq_nil_iff]
          intro y hy hpy
          exact hat ((huniq y (List.mem_cons_of_mem a hy) hpy) ▸ hy)
        rw [ht]
      · rw [List.filter_cons_of_neg ha]
        have hxt : x ∈ t := by
          rcases List.mem_cons.mp hx with h | h
          · subst h; exact absurd hpx ha
          · exact h
        exact ih hndt x hxt hpx
          (fun y hy hpy => huniq y (List.mem_cons_of_mem a hy) hpy)

/-- The filter of a duplicate-free list with exactly two satisfying
elements is one of the two orderings of that pair. -/
theorem filter_eq_pair_of_unique {β : Type} (pred : β → Bool) :
    ∀ (l : List β), l.Nodup → ∀ x y, x ≠ y → x ∈ l → y ∈ l →
      pred x = true → pred y = true →
      (∀ z ∈ l, pred z = true → z = x ∨ z = y) →
      l.filter pred = [x, y] ∨ l.filter pred = [y, x] := by
  intro l
  induction l with
  | nil => intro _ x y _ hx; cases hx
  | cons a t ih =>
      intro hnd x y hxy hx hy hpx hpy huniq
      obtain ⟨hat, hndt⟩ := List.nodup_cons.mp hnd
      by_cases ha : pred a = true
      · rcases huniq a (List.mem_cons_self a t) ha with h | h
        · subst h
          rw [List.filter_cons_of_pos ha]
          have hyt : y ∈ t := by
            rcases List.mem_cons.mp hy with h | h
            · exact absurd h.symm hxy
            · exact h
          have ht : t.filter pred = [y] :=
            filter_eq_singleton_of_unique pred t hndt y hyt hpy
              (fun z hz hpz => by
                rcases huniq z (List.mem_cons_of_mem a hz) hpz with h | h
                · subst h; exact absurd hz hat
                · exact h)
          rw [ht]
          exact Or.inl rfl
        · subst h
          rw [List.filter_cons_of_pos ha]
          have hxt : x ∈ t := by
            rcases List.mem_cons.mp hx with h | h
            · exact absurd h hxy
            · exact h
          have ht : t.filter pred = [x] :=
            filter_eq_singleton_of_unique pred t hndt x hxt hpx
              (fun z hz hpz => by
                rcases huniq z (List.mem_cons_of_mem a hz) hpz with h | h
                · exact h
                · subst h; exact absurd hz hat)
          rw [ht]
          exact Or.inr rfl
      · rw [List.filter_cons_of_neg ha]
        have hxt : x ∈ t := by
          rcases List.mem_cons.mp hx with h | h
          · subst h; exact absurd hpx ha
          · exact h
        have hyt : y ∈ t := by
          rcases List.mem_cons.mp hy with h | h
          · subst h; exact absurd hpy ha
          · exact h
        exact ih hndt x y hxy hxt hyt hpx hpy
          (fun z hz hpz => huniq z (List.mem_cons_of_mem a hz) hpz)

/-- Closed form of the merge fold over source people none of whom is the
target: sources are deleted, their faces repointed at the target, their
face counts summed. -/
theorem mergeStep_foldl (tid : Nat) :
    ∀ (srcs : List Person), (∀ s ∈ srcs, s.id ≠ tid) →
      ∀ (db : PeopleDb) (acc : Nat),
        srcs.foldl (mergeStep tid) (db, acc) =
          ({ persons := db.persons.filter
               (fun p => !(srcs.map Person.id).contains p.id),
             faces := db.faces.map (fun f =>
               if f.personId ∈ srcs.map (fun s => some s.id) then
                 { f with personId := some tid }
               else f) },
           acc + (srcs.map Person.faceCount).sum) := by
  intro srcs
  induction srcs with
  | nil =>
      intro _ db acc
      obtain ⟨ps, fs⟩ := db
      simp
  | cons s rest ih =>
      intro h db acc
      have hs : s.id ≠ tid := h s (List.mem_cons_self s rest)
      rw [List.foldl_cons]
      rw [show mergeStep tid (db, acc) s =
        ({ persons := db.persons.filter (fun p => p.id ≠ s.id),
           faces := db.faces.map (fun f =>
             if f.personId = some s.id then { f with personId := some tid }
             else f) }, acc + s.faceCount) from by
        rw [mergeStep, if_neg hs]]
      rw [ih (fun t ht => h t (List.mem_cons_of_mem s ht))]
      simp only [Prod.mk.injEq, PeopleDb.mk.injEq]
      refine ⟨⟨?_, ?_⟩, ?_⟩
      · rw [List.filter_filter]
        refine List.filter_congr ?_
        intro p _
        simp only [List.map_cons, List.contains_cons, Bool.not_or,
          decide_not]
        by_cases hpid : p.id = s.id <;> simp [hpid, Bool.and_comm]
      · rw [List.map_map]
        refine List.map_congr_left ?_
        intro f _
        simp only [Function.comp_apply, List.map_cons, List.mem_cons]
        by_cases hps : f.personId = some s.id
        · rw [if_pos hps]
          dsimp only
          by_cases hmem : some tid ∈ rest.map (fun s => some s.id)
          · rw [if_pos hmem, if_pos (Or.inl hps)]
          · rw [if_neg hmem, if_pos (Or.inl hps)]
        · rw [if_neg hps]
          by_cases hmem : f.personId ∈ rest.map (fun s => some s.id)
          · rw [if_pos hmem, if_pos (Or.inr hmem)]
          · rw [if_neg hmem, if_neg (by
              intro hcon
              rcases hcon with hcon | hcon
              · exact hps hcon
              · exact hmem hcon)]
      · simp only [List.map_cons, List.sum_cons]
        omega


/-- C8. Confirmed. Merging source persons B and C (distinct from the
target A and from each other, same owner) deletes B and C, repoints every
face of B or C at A, leaves faces already pointing at A (and all other
faces) unchanged, and adds the two face counts into the target. -/
theorem C8_merge_people (db : PeopleDb) (uid A B C : Nat)
    (pA pB pC : Person)
    (hnd : (db.persons.map Person.id).Nodup)
    (hAmem : pA ∈ db.persons) (hAid : pA.id = A) (hAown : pA.ownerId = uid)
    (hBmem : pB ∈ db.persons) (hBid : pB.id = B) (hBown : pB.ownerId = uid)
    (hCmem : pC ∈ db.persons) (hCid : pC.id = C) (hCown : pC.ownerId = uid)
    (hAB : A ≠ B) (hAC : A ≠ C) (hBC : B ≠ C) :
    ∃ db1, merge_people db uid A [B, C] = .ok db1 ∧
      { pA with faceCount := pA.faceCount + pB.faceCount + pC.faceCount } ∈
        db1.persons ∧
      (∀ p ∈ db1.persons, p.id ≠ B ∧ p.id ≠ C) ∧
      db1.faces = db.faces.map (fun f =>
        if f.personId = some B ∨ f.personId = some C then
          { f with personId := some A }
        else f) := by
  have hinj := List.inj_on_of_nodup_map hnd
  have hndp : db.persons.Nodup := List.Nodup.of_map Person.id hnd
  have hfind : db.persons.find?
      (fun p => p.id == A && p.ownerId == uid) = some pA := by
    apply find?_eq_some_of_unique _ _ _ hAmem (by simp [hAid, hAown])
    intro y hy hpy
    simp only [Bool.and_eq_true, beq_iff_eq] at hpy
    exact hinj hy hAmem (by rw [hpy.1, hAid])
  have hBC' : pB ≠ pC := fun h => hBC (by rw [← hBid, h, hCid])
  have hfilter := filter_eq_pair_of_unique
    (fun p => [B, C].contains p.id && p.ownerId == uid) db.persons hndp
    pB pC hBC' hBmem hCmem (by simp [hBid, hBown]) (by simp [hCid, hCown])
    (fun z hz hpz => by
      simp only [Bool.and_eq_true, beq_iff_eq, List.contains_cons,
        Bool.or_eq_true, List.contains_nil, Bool.or_false] at hpz
      rcases hpz.1 with h | h
      · exact Or.inl (hinj hz hBmem (by rw [h, hBid]))
      · exact Or.inr (hinj hz hCmem (by rw [h, hCid])))
  have hids : ∀ s ∈ [pB, pC], s.id ≠ pA.id := by
    intro t ht
    rcases List.mem_cons.mp ht with h | h
    · subst h; rw [hBid, hAid]; exact fun h => hAB h.symm
    · simp only [List.mem_singleton] at h
      subst h; rw [hCid, hAid]; exact fun h => hAC h.symm
  have hids2 : ∀ s ∈ [pC, pB], s.id ≠ pA.id := by
    intro t ht
    rcases List.mem_cons.mp ht with h | h
    · subst h; rw [hCid, hAid]; exact fun h => hAC h.symm
    · simp only [List.mem_singleton] at h
      subst h; rw [hBid, hAid]; exact fun h => hAB h.symm
  rw [merge_people, hfind]
  dsimp only
  rcases hfilter with hf | hf <;> rw [hf]
  · rw [if_neg (by simp)]
    rw [mergeStep_foldl pA.id [pB, pC] hids db 0]
    refine ⟨_, rfl, ?_, ?_, ?_⟩
    · dsimp only
      refine List.mem_map.mpr ⟨pA, List.mem_filter.mpr ⟨hAmem, ?_⟩, ?_⟩
      · simp only [List.map_cons, List.map_nil, List.contains_cons,
          List.contains_nil, hAid, hBid, hCid]
        simp [hAB, hAC]
      · rw [if_pos rfl]
        simp only [List.map_cons, List.map_nil, List.sum_cons,
          List.sum_nil]
        congr 1
        omega
    · intro p hp
      obtain ⟨q, hq, hbump⟩ := List.mem_map.mp hp
      obtain ⟨hqmem, hqpred⟩ := List.mem_filter.mp hq
      have hid : p.id = q.id := by
        rw [← hbump]
        split <;> rfl
      rw [hid]
      simp only [List.map_cons, List.map_nil, List.contains_cons,
        List.contains_nil, Bool.or_false, Bool.not_or, Bool.and_eq_true,
        Bool.not_eq_eq_eq_not, Bool.not_true, beq_eq_false_iff_ne,
        hBid, hCid] at hqpred
      exact hqpred
    · dsimp only
      refine List.map_congr_left ?_
      intro f _
      simp only [List.map_cons, List.map_nil, List.mem_cons,
        List.not_mem_nil, or_false, hAid, hBid, hCid]
  · rw [if_neg (by simp)]
    rw [mergeStep_foldl pA.id [pC, pB] hids2 db 0]
    refine ⟨_, rfl, ?_, ?_, ?_⟩
    · dsimp only
      refine List.mem_map.mpr ⟨pA, List.mem_filter.mpr ⟨hAmem, ?_⟩, ?_⟩
      · simp only [List.map_cons, List.map_nil, List.contains_cons,
          List.contains_nil, hAid, hBid, hCid]
        simp [hAB, hAC]
      · rw [if_pos rfl]
        simp only [List.map_cons, List.map_nil, List.sum_cons,
          List.sum_nil]
        congr 1
        omega
    · intro p hp
      obtain ⟨q, hq, hbump⟩ := List.mem_map.mp hp
      obtain ⟨hqmem, hqpred⟩ := List.mem_filter.mp hq
      have hid : p.id = q.id := by
        rw [← hbump]
        split <;> rfl
      rw [hid]
      simp only [List.map_cons, List.map_nil, List.contains_cons,
        List.contains_nil, Bool.or_false, Bool.not_or, Bool.and_eq_true,
        Bool.not_eq_eq_eq_not, Bool.not_true, beq_eq_false_iff_ne,
        hBid, hCid] at hqpred
      exact ⟨hqpred.2, hqpred.1⟩
    · dsimp only
      refine List.map_congr_left ?_
      intro f _
      simp only [List.map_cons, List.map_nil, List.mem_cons,
        List.not_mem_nil, or_false, hAid, hBid, hCid]
      by_cases hc : f.personId = some B ∨ f.personId = some C
      · rw [if_pos hc.symm, if_pos hc]
      · rw [if_neg (fun h => hc h.symm), if_neg hc]


/-- C8, witness: a concrete store with three persons of owner 7 and four
faces; the theorem applies and yields the merged store. -/
theorem C8_merge_people_witness :
    (([(⟨1, 7, 2⟩ : Person), ⟨2, 7, 3⟩, ⟨3, 7, 4⟩].map Person.id).Nodup) ∧
    ∃ db1,
      merge_people
          ⟨[⟨1, 7, 2⟩, ⟨2, 7, 3⟩, ⟨3, 7, 4⟩],
           [⟨10, some 2⟩, ⟨11, some 3⟩, ⟨12, some 1⟩, ⟨13, none⟩]⟩
          7 1 [2, 3] = .ok db1 ∧
      (⟨1, 7, 2 + 3 + 4⟩ : Person) ∈ db1.persons ∧
      (∀ p ∈ db1.persons, p.id ≠ 2 ∧ p.id ≠ 3) ∧
      db1.faces =
        [⟨10, some 2⟩, ⟨11, some 3⟩, ⟨12, some 1⟩,
          ⟨13, none⟩].map (fun f =>
            if f.personId = some 2 ∨ f.personId = some 3 then
              { f with personId := some 1 }
            else f) :=
  ⟨by decide,
   C8_merge_people
     ⟨[⟨1, 7, 2⟩, ⟨2, 7, 3⟩, ⟨3, 7, 4⟩],
      [⟨10, some 2⟩, ⟨11, some 3⟩, ⟨12, some 1⟩, ⟨13, none⟩]⟩
     7 1 2 3 ⟨1, 7, 2⟩ ⟨2, 7, 3⟩ ⟨3, 7, 4⟩ (by decide)
     (by decide) rfl rfl (by decide) rfl rfl (by decide) rfl rfl
     (by decide) (by decide) (by decide)⟩

/-- C10. Confirmed. When the target person's own id appears among the
merge sources, the loop skips it: the target survives, its faces keep
pointing at it, only the other source's face count is added (no double
counting), and the merge succeeds for the remaining source. -/
theorem C10_merge_skips_target (db : PeopleDb) (uid A B : Nat)
    (pA pB : Person)
    (hnd : (db.persons.map Person.id).Nodup)
    (hAmem : pA ∈ db.persons) (hAid : pA.id = A) (hAown : pA.ownerId = uid)
    (hBmem : pB ∈ db.persons) (hBid : pB.id = B) (hBown : pB.ownerId = uid)
    (hAB : A ≠ B) :
    ∃ db1, merge_people db uid A [A, B] = .ok db1 ∧
      { pA with faceCount := pA.faceCount + pB.faceCount } ∈ db1.persons ∧
      (∀ p ∈ db1.persons, p.id ≠ B) ∧
      db1.faces = db.faces.map (fun f =>
        if f.personId = some B then { f with personId := some A }
        else f) := by
  have hinj := List.inj_on_of_nodup_map hnd
  have hndp : db.persons.Nodup := List.Nodup.of_map Person.id hnd
  have hfind : db.persons.find?
      (fun p => p.id == A && p.ownerId == uid) = some pA := by
    apply find?_eq_some_of_unique _ _ _ hAmem (by simp [hAid, hAown])
    intro y hy hpy
    simp only [Bool.and_eq_true, beq_iff_eq] at hpy
    exact hinj hy hAmem (by rw [hpy.1, hAid])
  have hAB' : pA ≠ pB := fun h => hAB (by rw [← hAid, h, hBid])
  have hfilter := filter_eq_pair_of_unique
    (fun p => [A, B].contains p.id && p.ownerId == uid) db.persons hndp
    pA pB hAB' hAmem hBmem (by simp [hAid, hAown]) (by simp [hBid, hBown])
    (fun z hz hpz => by
      simp only [Bool.and_eq_true, beq_iff_eq, List.contains_cons,
        Bool.or_eq_true, List.contains_nil, Bool.or_false] at hpz
      rcases hpz.1 with h | h
      · exact Or.inl (hinj hz hAmem (by rw [h, hAid]))
      · exact Or.inr (hinj hz hBmem (by rw [h, hBid])))
  have hskip : ∀ st : PeopleDb × Nat, mergeStep pA.id st pA = st := by
    intro st; rw [mergeStep, if_pos rfl]
  have h1 : ∀ s ∈ [pB], s.id ≠ pA.id := by
    intro t ht
    simp only [List.mem_singleton] at ht
    subst ht
    rw [hBid, hAid]
    exact fun h => hAB h.symm
  rw [merge_people, hfind]
  dsimp only
  rcases hfilter with hf | hf <;> rw [hf]
  · rw [if_neg (by simp)]
    rw [show List.foldl (mergeStep pA.id) (db, 0) [pA, pB] =
        List.foldl (mergeStep pA.id) (db, 0) [pB] from by
      rw [List.foldl_cons, hskip]]
    rw [mergeStep_foldl pA.id [pB] h1 db 0]
    refine ⟨_, rfl, ?_, ?_, ?_⟩
    · dsimp only
      refine List.mem_map.mpr ⟨pA, List.mem_filter.mpr ⟨hAmem, ?_⟩, ?_⟩
      · simp only [List.map_cons, List.map_nil, List.contains_cons,
          List.contains_nil, hAid, hBid]
        simp [hAB]
      · rw [if_pos rfl]
        simp only [List.map_cons, List.map_nil, List.sum_cons,
          List.sum_nil]
        congr 1
        omega
    · intro p hp
      obtain ⟨q, hq, hbump⟩ := List.mem_map.mp hp
      obtain ⟨hqmem, hqpred⟩ := List.mem_filter.mp hq
      have hid : p.id = q.id := by
        rw [← hbump]
        split <;> rfl
      rw [hid]
      simp only [List.map_cons, List.map_nil, List.contains_cons,
        List.contains_nil, Bool.or_false, Bool.not_eq_eq_eq_not,
        Bool.not_true, beq_eq_false_iff_ne, hBid] at hqpred
      exact hqpred
    · dsimp only
      refine List.map_congr_left ?_
      intro f _
      simp only [List.map_cons, List.map_nil, List.mem_cons,
        List.not_mem_nil, or_false, hAid, hBid]
  · rw [if_neg (by simp)]
    rw [show List.foldl (mergeStep pA.id) (db, 0) [pB, pA] =
        List.foldl (mergeStep pA.id) (db, 0) [pB] from by
      rw [List.foldl_cons, List.foldl_cons, List.foldl_nil,
        List.foldl_cons, List.foldl_nil, hskip]]
    rw [mergeStep_foldl pA.id [pB] h1 db 0]
    refine ⟨_, rfl, ?_, ?_, ?_⟩
    · dsimp only
      refine List.mem_map.mpr ⟨pA, List.mem_filter.mpr ⟨hAmem, ?_⟩, ?_⟩
      · simp only [List.map_cons, List.map_nil, List.contains_cons,
          List.contains_nil, hAid, hBid]
        simp [hAB]
      · rw [if_pos rfl]
        simp only [List.map_cons, List.map_nil, List.sum_cons,
          List.sum_nil]
        congr 1
        omega
    · intro p hp
      obtain ⟨q, hq, hbump⟩ := List.mem_map.mp hp
      obtain ⟨hqmem, hqpred⟩ := List.mem_filter.mp hq
      have hid : p.id = q.id := by
        rw [← hbump]
        split <;> rfl
      rw [hid]
      simp only [List.map_cons, List.map_nil, List.contains_cons,
        List.contains_nil, Bool.or_false, Bool.not_eq_eq_eq_not,
        Bool.not_true, beq_eq_false_iff_ne, hBid] at hqpred
      exact hqpred
    · dsimp only
      refine List.map_congr_left ?_
      intro f _
      simp only [List.map_cons, List.map_nil, List.mem_cons,
        List.not_mem_nil, or_false, hAid, hBid]

/-- C10, witness: a concrete store where the target id 1 appears among the
sources; the theorem applies and the target survives with only the other
source's count added. -/
theorem C10_merge_skips_target_witness :
    (1 : Nat) ≠ 2 ∧
    ∃ db1,
      merge_people ⟨[⟨1, 7, 2⟩, ⟨2, 7, 3⟩], [⟨10, some 2⟩, ⟨12, some 1⟩]⟩
          7 1 [1, 2] = .ok db1 ∧
      (⟨1, 7, 2 + 3⟩ : Person) ∈ db1.persons ∧
      (∀ p ∈ db1.persons, p.id ≠ 2) ∧
      db1.faces = [⟨10, some 2⟩, ⟨12, some 1⟩].map (fun f =>
        if f.personId = some 2 then { f with personId := some 1 } else f) :=
  ⟨by decide,
   C10_merge_skips_target
     ⟨[⟨1, 7, 2⟩, ⟨2, 7, 3⟩], [⟨10, some 2⟩, ⟨12, some 1⟩]⟩
     7 1 2 ⟨1, 7, 2⟩ ⟨2, 7, 3⟩ (by decide) (by decide) rfl rfl
     (by decide) rfl rfl (by decide)⟩


/-- Indices of a suffix of range n lie between the cut and n. -/
theorem mem_drop_range {n m j : Nat} (h : j ∈ (List.range n).drop m) :
    m ≤ j ∧ j < n := by
  obtain ⟨i, hi, hj⟩ := List.mem_iff_getElem.mp h
  rw [List.getElem_drop] at hj
  rw [List.getElem_range] at hj
  simp only [List.length_drop, List.length_range] at hi
  omega

/-- The distance test of compare_faces is symmetric in its arguments. -/
theorem isMatch_comm {α : Type} [LinearOrderedCommRing α] (tol : α)
    (a b : List α) : isMatch tol a b = isMatch tol b a := by
  unfold isMatch sqDist
  rw [List.zipWith_comm_of_comm _ (fun x y => by ring) a b]

/-- Every index the inner loop collects comes from the scanned suffix and
matches the cluster opener. -/
theorem collectCluster_mem {α : Type} [LinearOrderedCommRing α] (tol : α)
    (encs : List (List α)) (i : Nat) :
    ∀ (js : List Nat) (assigned : Nat → Bool),
      ∀ j ∈ (collectCluster tol encs i js assigned).1,
        j ∈ js ∧ isMatch tol (encs.getD i []) (encs.getD j []) = true := by
  intro js
  induction js with
  | nil =>
      intro assigned j hj
      simp [collectCluster] at hj
  | cons a rest ih =>
      intro assigned j hj
      simp only [collectCluster] at hj
      split at hj
      · obtain ⟨h1, h2⟩ := ih assigned j hj
        exact ⟨List.mem_cons_of_mem a h1, h2⟩
      · split at hj
        · rename_i hmatch
          rcases List.mem_cons.mp hj with h | h
          · subst h
            exact ⟨List.mem_cons_self _ _, hmatch⟩
          · obtain ⟨h1, h2⟩ := ih _ j h
            exact ⟨List.mem_cons_of_mem a h1, h2⟩
        · obtain ⟨h1, h2⟩ := ih assigned j hj
          exact ⟨List.mem_cons_of_mem a h1, h2⟩

/-- Every cluster the outer loop emits is a leader taken from the
remaining index list together with later indices matching the leader. -/
theorem clusterLoop_shape {α : Type} [LinearOrderedCommRing α] (tol : α)
    (encs : List (List α)) :
    ∀ (is : List Nat) (assigned : Nat → Bool),
      ∀ c ∈ clusterLoop tol encs is assigned,
        ∃ l js, c = l :: js ∧ l ∈ is ∧
          ∀ j ∈ js, j ∈ (List.range encs.length).drop (l + 1) ∧
            isMatch tol (encs.getD l []) (encs.getD j []) = true := by
  intro is
  induction is with
  | nil =>
      intro assigned c hc
      simp [clusterLoop] at hc
  | cons a rest ih =>
      intro assigned c hc
      simp only [clusterLoop] at hc
      split at hc
      · obtain ⟨l, js, h1, h2, h3⟩ := ih assigned c hc
        exact ⟨l, js, h1, List.mem_cons_of_mem a h2, h3⟩
      · rcases List.mem_cons.mp hc with h | h
        · subst h
          refine ⟨a, _, rfl, List.mem_cons_self a rest, ?_⟩
          intro j hj
          exact collectCluster_mem tol encs a _ _ j hj
        · obtain ⟨l, js, h1, h2, h3⟩ := ih _ c h
          exact ⟨l, js, h1, List.mem_cons_of_mem a h2, h3⟩

/-- When every index of the scanned suffix is unassigned and matches the
opener, the inner loop collects the whole suffix and marks it assigned. -/
theorem collectCluster_all {α : Type} [LinearOrderedCommRing α] (tol : α)
    (encs : List (List α)) (i : Nat) :
    ∀ (js : List Nat) (assigned : Nat → Bool), js.Nodup →
      (∀ j ∈ js, assigned j = false) →
      (∀ j ∈ js, isMatch tol (encs.getD i []) (encs.getD j []) = true) →
      (collectCluster tol encs i js assigned).1 = js ∧
      ∀ k, (collectCluster tol encs i js assigned).2 k =
        (assigned k || js.contains k) := by
  intro js
  induction js with
  | nil =>
      intro assigned _ _ _
      exact ⟨rfl, fun k => by simp [collectCluster]⟩
  | cons a rest ih =>
      intro assigned hnd hun hm
      obtain ⟨har, hndr⟩ := List.nodup_cons.mp hnd
      have ha : assigned a = false := hun a (List.mem_cons_self a rest)
      have hma : isMatch tol (encs.getD i []) (encs.getD a []) = true :=
        hm a (List.mem_cons_self a rest)
      simp only [collectCluster]
      rw [if_neg (by simp [ha]), if_pos hma]
      obtain ⟨h1, h2⟩ := ih (fun k => if k = a then true else assigned k)
        hndr
        (fun x hx => by
          have hxa : x ≠ a := fun hcon => har (hcon ▸ hx)
          simp [hxa, hun x (List.mem_cons_of_mem a hx)])
        (fun x hx => hm x (List.mem_cons_of_mem a hx))
      refine ⟨by rw [h1], ?_⟩
      intro k
      rw [h2 k]
      by_cases hk : k = a
      · subst hk
        simp [ha, List.contains_cons]
      · simp [hk, List.contains_cons]

/-- A loop over fully assigned indices emits no cluster. -/
theorem clusterLoop_done {α : Type} [LinearOrderedCommRing α] (tol : α)
    (encs : List (List α)) :
    ∀ (is : List Nat) (assigned : Nat → Bool),
      (∀ i ∈ is, assigned i = true) →
      clusterLoop tol encs is assigned = [] := by
  intro is
  induction is with
  | nil => intro assigned _; rfl
  | cons a rest ih =>
      intro assigned h
      simp only [clusterLoop]
      rw [if_pos (h a (List.mem_cons_self a rest))]
      exact ih assigned (fun x hx => h x (List.mem_cons_of_mem a hx))

/-- C6. As stated the claim fails (see the counterexample): cluster_faces
is greedy star clustering, not single-linkage — chains do not merge.
Amended: every emitted cluster is a leader index together with later
indices each within tolerance of the leader (no transitive closure); in
particular a nonempty set whose pairwise distances are all within
tolerance yields exactly one cluster of all indices, and two faces
farther apart than tolerance with no third face within tolerance of both
never share a cluster. -/
theorem C6_greedy_star_clustering {α : Type} [LinearOrderedCommRing α]
    (tol : α) (encs : List (List α)) :
    (∀ c ∈ cluster_faces tol encs, ∃ l js, c = l :: js ∧
      l < encs.length ∧
      ∀ j ∈ js, l < j ∧ j < encs.length ∧
        isMatch tol (encs.getD l []) (encs.getD j []) = true) ∧
    (0 < encs.length →
      (∀ i, i < encs.length → ∀ j, j < encs.length →
        isMatch tol (encs.getD i []) (encs.getD j []) = true) →
      cluster_faces tol encs = [List.range encs.length]) ∧
    (∀ i j, i ≠ j →
      isMatch tol (encs.getD i []) (encs.getD j []) = false →
      (∀ k, k < encs.length →
        ¬(isMatch tol (encs.getD k []) (encs.getD i []) = true ∧
          isMatch tol (encs.getD k []) (encs.getD j []) = true)) →
      inSameCluster (cluster_faces tol encs) i j = false) := by
  refine ⟨?_, ?_, ?_⟩
  · intro c hc
    obtain ⟨l, js, h1, h2, h3⟩ :=
      clusterLoop_shape tol encs (List.range encs.length) (fun _ => false)
        c hc
    refine ⟨l, js, h1, List.mem_range.mp h2, ?_⟩
    intro j hj
    obtain ⟨hd, hmatch⟩ := h3 j hj
    obtain ⟨hle, hlt⟩ := mem_drop_range hd
    exact ⟨by omega, hlt, hmatch⟩
  · intro h0 hall
    rw [cluster_faces]
    have hsplit : List.range encs.length =
        0 :: (List.range encs.length).drop 1 := by
      cases hn : encs.length with
      | zero => omega
      | succ m => rw [List.range_succ_eq_map]; rfl
    rw [hsplit]
    simp only [clusterLoop]
    rw [if_neg (by simp)]
    obtain ⟨hc1, hc2⟩ := collectCluster_all tol encs 0
      ((List.range encs.length).drop (0 + 1))
      (fun k => if k = 0 then true else false)
      (List.Nodup.sublist (List.drop_sublist _ _)
        (List.nodup_range encs.length))
      (fun j hj => by
        obtain ⟨h1, _⟩ := mem_drop_range hj
        have : j ≠ 0 := by omega
        simp [this])
      (fun j hj => by
        obtain ⟨_, h2⟩ := mem_drop_range hj
        exact hall 0 h0 j h2)
    rw [clusterLoop_done tol encs _ _ (fun i hi => by
      have hconts : ((List.range encs.length).drop (0 + 1)).contains i =
          true := by simpa using hi
      rw [hc2 i, hconts, Bool.or_true])]
    rw [hc1]
  · intro i j hij hmatch hbridge
    rw [inSameCluster, List.any_eq_false]
    intro c hc
    intro hcon
    rw [Bool.and_eq_true] at hcon
    have hi : i ∈ c := by simpa using hcon.1
    have hj : j ∈ c := by simpa using hcon.2
    obtain ⟨l, js, h1, h2, h3⟩ :=
      clusterLoop_shape tol encs (List.range encs.length) (fun _ => false)
        c hc
    subst h1
    rcases List.mem_cons.mp hi with hi1 | hi1 <;>
      rcases List.mem_cons.mp hj with hj1 | hj1
    · exact hij (hi1.trans hj1.symm)
    · obtain ⟨_, hm⟩ := h3 j hj1
      rw [← hi1] at hm
      exact absurd (hm.symm.trans hmatch) (by decide)
    · obtain ⟨_, hm⟩ := h3 i hi1
      rw [← hj1, isMatch_comm] at hm
      exact absurd (hm.symm.trans hmatch) (by decide)
    · obtain ⟨_, hmi⟩ := h3 i hi1
      obtain ⟨_, hmj⟩ := h3 j hj1
      exact hbridge l (List.mem_range.mp h2) ⟨hmi, hmj⟩

/-- C6, witness: two identical encodings cluster into the single full
cluster, and two far-apart encodings with no bridge land apart; the
amended theorem applies at both concrete inputs. -/
theorem C6_greedy_star_clustering_witness :
    cluster_faces (1 : ℤ) [[0], [0]] = [List.range 2] ∧
    inSameCluster (cluster_faces (1 : ℤ) [[0], [5]]) 0 1 = false :=
  ⟨(C6_greedy_star_clustering (1 : ℤ) [[0], [0]]).2.1 (by decide)
     (by decide),
   (C6_greedy_star_clustering (1 : ℤ) [[0], [5]]).2.2 0 1 (by decide)
     (by decide) (by decide)⟩

/-- C6, counterexample to the claim as stated: encodings 0, 1, 2 with
tolerance 1 are chain-connected (consecutive distances within tolerance),
yet the greedy pass groups 0 with 1 and leaves 2 alone — transitive
closure is not taken, so co-clustering is not equivalent to
chain-connectedness. -/
theorem C6_counterexample :
    isMatch (1 : ℤ) [0] [1] = true ∧
    isMatch (1 : ℤ) [1] [2] = true ∧
    cluster_faces (1 : ℤ) [[0], [1], [2]] = [[0, 1], [2]] ∧
    inSameCluster (cluster_faces (1 : ℤ) [[0], [1], [2]]) 0 2 = false := by
  decide


end PhotoVault
